import Mathlib

/-!
Verification development for the rating engine of `examples/analyze_results.py`.

The engine is embedded shallowly:
* scores and ratings are real numbers (`ℝ`), score rows and rating vectors are `List ℝ`;
* `argsort` models `numpy.argsort` on one score row as the stable argsort:
  indices sorted by score, ties broken by ascending index;
* `_elo_change` embeds the pairwise delta function `_elo_change` (line 87);
* `update_elos` embeds the per-game update `update_elos` (line 92), with the
  sequential `-=`/`+=` writes modelled by `List.set` over an accumulator list;
* `dense_ranks` embeds the dense-rank computation
  `num_players - scores.values.argsort().argsort()` (line 23);
* `elo_loop` / `run_ratings` embed the sequential driver (lines 68-73):
  seed ratings `1500 + arange(P)`, initial `k = 20`, per-game transition
  `elos[i+1] = elos[i] + update_elos(elos[i], s.argsort(), k)` followed by
  `k = max(0.99 * k, 1)`;
* `kSeq` is the learning-rate sequence in isolation.
-/

noncomputable section

open List

/-- Key order modelling `numpy.argsort` on a score row: compare scores,
break ties by ascending player index (stable argsort). -/
def keyLt (s : List ℝ) (i j : ℕ) : Prop :=
  s.getD i 0 < s.getD j 0 ∨ (s.getD i 0 = s.getD j 0 ∧ i ≤ j)

instance keyLtDec (s : List ℝ) : DecidableRel (keyLt s) := fun i j => by
  unfold keyLt; infer_instance

instance keyLtTotal (s : List ℝ) : IsTotal ℕ (keyLt s) := by
  constructor
  intro i j
  rcases lt_trichotomy (s.getD i 0) (s.getD j 0) with h | h | h
  · exact Or.inl (Or.inl h)
  · rcases Nat.le_total i j with hij | hij
    · exact Or.inl (Or.inr ⟨h, hij⟩)
    · exact Or.inr (Or.inr ⟨h.symm, hij⟩)
  · exact Or.inr (Or.inl h)

instance keyLtTrans (s : List ℝ) : IsTrans ℕ (keyLt s) := by
  constructor
  intro i j m hij hjm
  rcases hij with h1 | ⟨h1, h1'⟩ <;> rcases hjm with h2 | ⟨h2, h2'⟩
  · exact Or.inl (h1.trans h2)
  · exact Or.inl (h2 ▸ h1)
  · exact Or.inl (h1 ▸ h2)
  · exact Or.inr ⟨h1.trans h2, h1'.trans h2'⟩

instance keyLtAntisymm (s : List ℝ) : IsAntisymm ℕ (keyLt s) := by
  constructor
  intro i j hij hji
  rcases hij with h1 | ⟨h1, h1'⟩ <;> rcases hji with h2 | ⟨h2, h2'⟩
  · exact absurd (h1.trans h2) (lt_irrefl _)
  · exact absurd h1 (h2 ▸ lt_irrefl _)
  · exact absurd h2 (h1 ▸ lt_irrefl _)
  · exact Nat.le_antisymm h1' h2'

/-- `argsort s` returns the player indices of the row `s` ordered by ascending
score (ties by ascending index): the embedding of `s.argsort()`. -/
def argsort (s : List ℝ) : List ℕ :=
  List.insertionSort (keyLt s) (List.range s.length)

/-- Embedding of line 23, `num_players - scores.values.argsort().argsort()`,
for one score row: applying argsort twice and subtracting from the number of
players elementwise. -/
def dense_ranks (s : List ℝ) : List ℤ :=
  (argsort ((argsort s).map (fun x : ℕ => (x : ℝ)))).map
    (fun b : ℕ => (s.length : ℤ) - (b : ℤ))

/-- Embedding of `_elo_change(rating_loser, rating_winner, k)`:
`k / (1 + 10 ** ((rating_winner - rating_loser) / 400))`, with `**` as real
exponentiation. -/
def _elo_change (rating_loser rating_winner elo_k : ℝ) : ℝ :=
  elo_k / (1 + (10 : ℝ) ^ ((rating_winner - rating_loser) / 400))

/-- One iteration of the `for j in range(1, num_players)` loop in `update_elos`:
`elo_change[ranking[j-1]] -= delta; elo_change[ranking[j]] += delta`. -/
def update_step (current_elos : List ℝ) (elo_k : ℝ) (ranking : List ℕ)
    (elo_change : List ℝ) (j : ℕ) : List ℝ :=
  let idx_loser := ranking.getD (j - 1) 0
  let idx_winner := ranking.getD j 0
  let delta := _elo_change (current_elos.getD idx_loser 0)
    (current_elos.getD idx_winner 0) elo_k
  let c1 := elo_change.set idx_loser (elo_change.getD idx_loser 0 - delta)
  c1.set idx_winner (c1.getD idx_winner 0 + delta)

/-- Embedding of `update_elos(current_elos, ranking, elo_k)`: starting from an
all-zero change list of length `num_players`, fold the loop body over
`j = 1, ..., num_players - 1`. -/
def update_elos (current_elos : List ℝ) (ranking : List ℕ) (elo_k : ℝ) : List ℝ :=
  (List.range' 1 (current_elos.length - 1)).foldl
    (update_step current_elos elo_k ranking)
    (List.replicate current_elos.length 0)

/-- The delta exchanged by the adjacent pair at positions `j-1`, `j` of the
ranking, computed from the (pre-update) rating vector `current_elos`. -/
def pair_delta (current_elos : List ℝ) (ranking : List ℕ) (elo_k : ℝ) (j : ℕ) : ℝ :=
  _elo_change (current_elos.getD (ranking.getD (j - 1) 0) 0)
    (current_elos.getD (ranking.getD j 0) 0) elo_k

/-- Elementwise vector addition, modelling `elos[i] + update_elos(...)` on
numpy rows. -/
def addVec (a b : List ℝ) : List ℝ := List.zipWith (· + ·) a b

/-- Embedding of the seed row `elos[0] = 1500 + np.arange(num_players)`. -/
def seedElos (num_players : ℕ) : List ℝ :=
  (List.range num_players).map (fun i : ℕ => (1500 : ℝ) + i)

/-- The sequential driver loop of lines 71-73: given the current rating vector
and learning rate, emit the history of rating vectors over the remaining games
(one row per visited state, including the current one). -/
def elo_loop (elos : List ℝ) (elo_k : ℝ) : List (List ℝ) → List (List ℝ)
  | [] => [elos]
  | s :: rest =>
      elos :: elo_loop (addVec elos (update_elos elos (argsort s) elo_k))
        (max (0.99 * elo_k) 1) rest

/-- The full sequential pass of lines 68-73: seed ratings, initial `k = 20`,
then the driver loop over all game rows. -/
def run_ratings (scores : List (List ℝ)) (num_players : ℕ) : List (List ℝ) :=
  elo_loop (seedElos num_players) 20 scores

/-- The learning-rate sequence in isolation: `k₀ = 20`,
`k_{n+1} = max (0.99 * k_n) 1` (line 73). -/
def kSeq : ℕ → ℝ
  | 0 => 20
  | n + 1 => max (0.99 * kSeq n) 1

/-! ### Helper lemmas: list reading and writing -/

theorem getD_eq_getElem_of_lt (l : List ℝ) (i : ℕ) (h : i < l.length) :
    l.getD i 0 = l[i] := by
  simp [List.getD_eq_getElem?_getD, List.getElem?_eq_getElem h]

theorem getD_set_self (l : List ℝ) (i : ℕ) (x : ℝ) (h : i < l.length) :
    (l.set i x).getD i 0 = x := by
  rw [getD_eq_getElem_of_lt _ _ (by simpa using h)]
  simp

theorem getD_set_other (l : List ℝ) (i j : ℕ) (x : ℝ) (h : i ≠ j) :
    (l.set i x).getD j 0 = l.getD j 0 := by
  simp [List.getD_eq_getElem?_getD, List.getElem?_set_ne h]

theorem sum_set_of_lt (l : List ℝ) (i : ℕ) (x : ℝ) (h : i < l.length) :
    (l.set i x).sum = l.sum - l.getD i 0 + x := by
  induction l generalizing i with
  | nil => simp at h
  | cons a t ih =>
      cases i with
      | zero => simp; ring
      | succ n =>
          simp only [List.set_cons_succ, List.sum_cons, List.getD_cons_succ]
          rw [ih n (by simpa using h)]
          ring

/-! ### Helper lemmas: the argsort order -/

theorem argsort_perm (s : List ℝ) : argsort s ~ List.range s.length :=
  List.perm_insertionSort _ _

theorem argsort_length (s : List ℝ) : (argsort s).length = s.length := by
  rw [(argsort_perm s).length_eq, List.length_range]

theorem argsort_nodup (s : List ℝ) : (argsort s).Nodup :=
  (argsort_perm s).nodup_iff.mpr (List.nodup_range _)

theorem argsort_mem_lt (s : List ℝ) {x : ℕ} (hx : x ∈ argsort s) : x < s.length :=
  List.mem_range.mp ((argsort_perm s).mem_iff.mp hx)

theorem argsort_sorted (s : List ℝ) : List.Sorted (keyLt s) (argsort s) :=
  List.sorted_insertionSort _ _

/-! ### Helper lemmas: length and sum of the per-game update -/

theorem update_step_length (current_elos : List ℝ) (elo_k : ℝ) (ranking : List ℕ)
    (c : List ℝ) (j : ℕ) :
    (update_step current_elos elo_k ranking c j).length = c.length := by
  simp [update_step]

theorem foldl_update_length (current_elos : List ℝ) (elo_k : ℝ) (ranking : List ℕ)
    (L : List ℕ) (c : List ℝ) :
    (L.foldl (update_step current_elos elo_k ranking) c).length = c.length := by
  induction L generalizing c with
  | nil => rfl
  | cons j t ih => rw [List.foldl_cons, ih, update_step_length]

theorem update_elos_length (current_elos : List ℝ) (ranking : List ℕ) (elo_k : ℝ) :
    (update_elos current_elos ranking elo_k).length = current_elos.length := by
  rw [update_elos, foldl_update_length, List.length_replicate]

theorem update_step_sum (current_elos : List ℝ) (elo_k : ℝ) (ranking : List ℕ)
    (c : List ℝ) (j : ℕ)
    (hL : ranking.getD (j - 1) 0 < c.length) (hW : ranking.getD j 0 < c.length) :
    (update_step current_elos elo_k ranking c j).sum = c.sum := by
  unfold update_step
  rw [sum_set_of_lt _ _ _ (by simpa using hW), sum_set_of_lt _ _ _ hL]
  ring

theorem ranking_getD_lt (ranking : List ℕ) (n : ℕ) (hrk : ∀ x ∈ ranking, x < n)
    (hpos : 0 < n) (m : ℕ) : ranking.getD m 0 < n := by
  by_cases h : m < ranking.length
  · rw [List.getD_eq_getElem?_getD, List.getElem?_eq_getElem h]
    exact hrk _ (List.getElem_mem h)
  · rw [List.getD_eq_getElem?_getD, List.getElem?_eq_none (by omega)]
    exact hpos

theorem foldl_update_sum (current_elos : List ℝ) (elo_k : ℝ) (ranking : List ℕ)
    (hrk : ∀ x ∈ ranking, x < current_elos.length) (hpos : 0 < current_elos.length)
    (L : List ℕ) (c : List ℝ) (hc : c.length = current_elos.length) :
    (L.foldl (update_step current_elos elo_k ranking) c).sum = c.sum := by
  induction L generalizing c with
  | nil => rfl
  | cons j t ih =>
      rw [List.foldl_cons, ih _ (by rw [update_step_length]; exact hc),
        update_step_sum _ _ _ _ _ (hc ▸ ranking_getD_lt ranking _ hrk hpos _)
          (hc ▸ ranking_getD_lt ranking _ hrk hpos _)]

theorem sum_update_elos (current_elos : List ℝ) (ranking : List ℕ) (elo_k : ℝ)
    (hrk : ∀ x ∈ ranking, x < current_elos.length) :
    (update_elos current_elos ranking elo_k).sum = 0 := by
  rcases Nat.eq_zero_or_pos current_elos.length with h0 | hpos
  · rw [update_elos, h0]
    rfl
  · rw [update_elos, foldl_update_sum current_elos elo_k ranking hrk hpos _ _
      (List.length_replicate _ _)]
    simp

/-! ### Helper lemmas: vector addition and the sequential driver -/

theorem addVec_length (a b : List ℝ) (h : a.length = b.length) :
    (addVec a b).length = a.length := by
  simp [addVec, h]

theorem addVec_sum (a : List ℝ) : ∀ b : List ℝ, a.length = b.length →
    (addVec a b).sum = a.sum + b.sum := by
  induction a with
  | nil =>
      intro b h
      cases b with
      | nil => simp [addVec]
      | cons y u => simp at h
  | cons x t ih =>
      intro b h
      cases b with
      | nil => simp at h
      | cons y u =>
          simp only [addVec, List.zipWith_cons_cons, List.sum_cons] at *
          rw [ih u (by simpa using h)]
          ring

theorem elo_loop_length (scores : List (List ℝ)) : ∀ (elos : List ℝ) (elo_k : ℝ),
    (elo_loop elos elo_k scores).length = scores.length + 1 := by
  induction scores with
  | nil => intro elos elo_k; rfl
  | cons s rest ih => intro elos elo_k; simp [elo_loop, ih]

theorem elo_loop_head (elos : List ℝ) (elo_k : ℝ) (scores : List (List ℝ)) :
    (elo_loop elos elo_k scores).getD 0 [] = elos := by
  cases scores <;> rfl

theorem elo_loop_sum (scores : List (List ℝ)) :
    ∀ (elos : List ℝ) (elo_k : ℝ) (P : ℕ), elos.length = P →
    (∀ row ∈ scores, row.length = P) →
    ∀ i < (elo_loop elos elo_k scores).length,
      ((elo_loop elos elo_k scores).getD i []).sum = elos.sum := by
  induction scores with
  | nil =>
      intro elos elo_k P hlen hrows i hi
      simp [elo_loop] at hi
      subst hi
      rfl
  | cons s rest ih =>
      intro elos elo_k P hlen hrows i hi
      cases i with
      | zero => rfl
      | succ m =>
          have hs : s.length = P := hrows s (by simp)
          have hch : (update_elos elos (argsort s) elo_k).length = elos.length :=
            update_elos_length _ _ _
          have hnext : (addVec elos (update_elos elos (argsort s) elo_k)).length = P := by
            rw [addVec_length _ _ hch.symm]; exact hlen
          have hsum0 : (update_elos elos (argsort s) elo_k).sum = 0 := by
            apply sum_update_elos
            intro x hx
            have := argsort_mem_lt s hx
            omega
          have hnsum : (addVec elos (update_elos elos (argsort s) elo_k)).sum = elos.sum := by
            rw [addVec_sum _ _ hch.symm, hsum0, add_zero]
          have hi' : m < (elo_loop (addVec elos (update_elos elos (argsort s) elo_k))
              (max (0.99 * elo_k) 1) rest).length := by
            rw [elo_loop_length]
            rw [elo_loop, List.length_cons, elo_loop_length] at hi
            omega
          have := ih (addVec elos (update_elos elos (argsort s) elo_k))
            (max (0.99 * elo_k) 1) P hnext (fun row hr => hrows row (by simp [hr])) m hi'
          rw [elo_loop, List.getD_cons_succ, this, hnsum]

/-! ### Claim theorems (zero-sum, delta bounds, delta symmetry, driver) -/

/-- C3: for every rating vector of length `P ≥ 1`, every ranking that is a
permutation of the `P` player indices and every `k`, the change vector returned
by `update_elos` sums to exactly `0`; in particular, for `P = 1` the change
vector is all zero. -/
theorem C3_zero_sum (current_elos : List ℝ) (ranking : List ℕ) (elo_k : ℝ)
    (hperm : ranking ~ List.range current_elos.length) (hP : 1 ≤ current_elos.length) :
    (update_elos current_elos ranking elo_k).sum = 0 ∧
      (current_elos.length = 1 →
        update_elos current_elos ranking elo_k = List.replicate current_elos.length 0) := by
  constructor
  · apply sum_update_elos
    intro x hx
    exact List.mem_range.mp (hperm.mem_iff.mp hx)
  · intro h1
    unfold update_elos
    rw [h1]
    rfl

/-- Witness for C3 at `elos = [1500]`, `ranking = [0]`, `k = 20`. -/
theorem C3_zero_sum_witness :
    ([(0 : ℕ)] ~ List.range ([(1500 : ℝ)]).length) ∧ 1 ≤ ([(1500 : ℝ)]).length ∧
      (update_elos [(1500 : ℝ)] [0] 20).sum = 0 := by
  have hr1 : List.range ([(1500 : ℝ)]).length = [0] := by
    simp [List.range_succ]
  exact ⟨hr1 ▸ List.Perm.refl [0], by simp,
    (C3_zero_sum [(1500 : ℝ)] [0] 20 (hr1 ▸ List.Perm.refl [0]) (by simp)).1⟩

/-- C5: for every pair of (finite) ratings and every `k > 0`, the pairwise
delta `k / (1 + 10 ^ ((rating_winner - rating_loser) / 400))` lies strictly
between `0` and `k`. -/
theorem C5_delta_bound (rating_loser rating_winner elo_k : ℝ) (hk : 0 < elo_k) :
    0 < _elo_change rating_loser rating_winner elo_k ∧
      _elo_change rating_loser rating_winner elo_k < elo_k := by
  unfold _elo_change
  have ht : 0 < (10 : ℝ) ^ ((rating_winner - rating_loser) / 400) :=
    Real.rpow_pos_of_pos (by norm_num) _
  constructor
  · exact div_pos hk (by linarith)
  · exact div_lt_self hk (by linarith)

/-- Witness for C5 at ratings `1500`, `1500` and `k = 20`. -/
theorem C5_delta_bound_witness :
    (0 : ℝ) < 20 ∧ (0 < _elo_change 1500 1500 20 ∧ _elo_change 1500 1500 20 < 20) :=
  ⟨by norm_num, C5_delta_bound 1500 1500 20 (by norm_num)⟩

/-- C6: swapping the winner and loser ratings complements the delta with
respect to `k`: `_elo_change a b k + _elo_change b a k = k` for all ratings
and every `k`. -/
theorem C6_delta_symm (a b elo_k : ℝ) :
    _elo_change a b elo_k + _elo_change b a elo_k = elo_k := by
  unfold _elo_change
  have hneg : (a - b) / 400 = -((b - a) / 400) := by ring
  rw [hneg, Real.rpow_neg (by norm_num)]
  set t := (10 : ℝ) ^ ((b - a) / 400) with ht
  have htpos : 0 < t := Real.rpow_pos_of_pos (by norm_num) _
  have h1 : (1 : ℝ) + t ≠ 0 := by linarith
  have h2 : t ≠ 0 := ne_of_gt htpos
  field_simp
  ring

/-- C7: on a table of `G ≥ 1` games over `P ≥ 2` players, the full sequential
pass produces exactly `G + 1` rating vectors, whose row `0` is the seed vector
with entry `1500 + i` at player index `i`. -/
theorem C7_history (scores : List (List ℝ)) (num_players : ℕ)
    (hG : 1 ≤ scores.length) (hP : 2 ≤ num_players)
    (hrows : ∀ row ∈ scores, row.length = num_players) :
    (run_ratings scores num_players).length = scores.length + 1 ∧
      (run_ratings scores num_players).getD 0 [] = seedElos num_players ∧
      ∀ i < num_players, (seedElos num_players).getD i 0 = 1500 + i := by
  refine ⟨elo_loop_length scores _ _, elo_loop_head _ _ _, ?_⟩
  intro i hi
  rw [getD_eq_getElem_of_lt _ _
    (by rw [seedElos, List.length_map, List.length_range]; exact hi)]
  simp only [seedElos, List.getElem_map, List.getElem_range]

/-- Witness for C7 on the one-game two-player table `[[1, 2]]`. -/
theorem C7_history_witness :
    1 ≤ ([[(1 : ℝ), 2]]).length ∧ 2 ≤ 2 ∧
      (run_ratings [[(1 : ℝ), 2]] 2).length = ([[(1 : ℝ), 2]]).length + 1 :=
  ⟨by norm_num, by norm_num,
    (C7_history [[(1 : ℝ), 2]] 2 (by norm_num) (by norm_num)
      (by intro row hr; simp only [List.mem_singleton] at hr; rw [hr]; rfl)).1⟩

/-! ### Claim theorems: learning-rate schedule -/

theorem kSeq_one_le : ∀ n, 1 ≤ kSeq n
  | 0 => by norm_num [kSeq]
  | n + 1 => le_max_right _ _

theorem kSeq_succ_le (n : ℕ) : kSeq (n + 1) ≤ kSeq n := by
  have h1 := kSeq_one_le n
  have : kSeq (n + 1) = max (0.99 * kSeq n) 1 := rfl
  rw [this]
  apply max_le
  · nlinarith
  · exact h1

theorem kSeq_antitone {n m : ℕ} (h : n ≤ m) : kSeq m ≤ kSeq n := by
  induction h with
  | refl => exact le_refl _
  | step h ih => exact (kSeq_succ_le _).trans ih

theorem kSeq_absorb {n m : ℕ} (h : n ≤ m) (h1 : kSeq n = 1) : kSeq m = 1 := by
  induction h with
  | refl => exact h1
  | step h ih =>
      rename_i m'
      have : kSeq (m' + 1) = max (0.99 * kSeq m') 1 := rfl
      rw [this, ih, max_eq_right (by norm_num)]

/-- C8: the learning rate starts at `20`, is updated to `max (0.99 * k) 1`
after each game, hence is monotonically non-increasing, never drops below `1`,
and once it reaches `1` it stays at `1`. -/
theorem C8_k_schedule (n m : ℕ) (h : n ≤ m) :
    kSeq 0 = 20 ∧ 1 ≤ kSeq m ∧ kSeq m ≤ kSeq n ∧ (kSeq n = 1 → kSeq m = 1) :=
  ⟨rfl, kSeq_one_le m, kSeq_antitone h, kSeq_absorb h⟩

/-- Witness for C8 at `n = 0`, `m = 1`. -/
theorem C8_k_schedule_witness :
    kSeq 0 = 20 ∧ 1 ≤ kSeq 1 ∧ kSeq 1 ≤ kSeq 0 ∧ (kSeq 0 = 1 → kSeq 1 = 1) :=
  C8_k_schedule 0 1 (Nat.zero_le _)

/-! ### Helper lemmas: rankings that are permutations of the player indices -/

theorem perm_range_length {rk : List ℕ} {n : ℕ} (h : rk ~ List.range n) :
    rk.length = n := by
  rw [h.length_eq, List.length_range]

theorem perm_range_nodup {rk : List ℕ} {n : ℕ} (h : rk ~ List.range n) : rk.Nodup :=
  h.nodup_iff.mpr (List.nodup_range n)

theorem perm_range_getD_lt {rk : List ℕ} {n : ℕ} (h : rk ~ List.range n)
    {i : ℕ} (hi : i < n) : rk.getD i 0 < n := by
  have hlen : i < rk.length := by rw [perm_range_length h]; exact hi
  rw [List.getD_eq_getElem?_getD, List.getElem?_eq_getElem hlen]
  exact List.mem_range.mp (h.mem_iff.mp (List.getElem_mem hlen))

theorem perm_range_getD_ne {rk : List ℕ} {n : ℕ} (h : rk ~ List.range n)
    {i j : ℕ} (hi : i < n) (hj : j < n) (hne : i ≠ j) :
    rk.getD i 0 ≠ rk.getD j 0 := by
  have hi' : i < rk.length := by rw [perm_range_length h]; exact hi
  have hj' : j < rk.length := by rw [perm_range_length h]; exact hj
  rw [List.getD_eq_getElem?_getD, List.getElem?_eq_getElem hi',
    List.getD_eq_getElem?_getD, List.getElem?_eq_getElem hj']
  simp only [Option.getD_some]
  intro hEq
  exact hne (((perm_range_nodup h).getElem_inj_iff).mp hEq)

theorem getD_replicate_zero {n i : ℕ} (hi : i < n) :
    (List.replicate n (0 : ℝ)).getD i 0 = 0 := by
  rw [getD_eq_getElem_of_lt _ _ (by rw [List.length_replicate]; exact hi)]
  exact List.getElem_replicate _ _

/-- Reading the winner slot of one loop iteration: position `m+1` of the
ranking gains the pair delta. -/
theorem update_step_getD_winner (current_elos : List ℝ) (elo_k : ℝ) (rk : List ℕ)
    (c : List ℝ) (m : ℕ) (hne : rk.getD m 0 ≠ rk.getD (m + 1) 0)
    (hW : rk.getD (m + 1) 0 < c.length) :
    (update_step current_elos elo_k rk c (m + 1)).getD (rk.getD (m + 1) 0) 0 =
      c.getD (rk.getD (m + 1) 0) 0 + pair_delta current_elos rk elo_k (m + 1) := by
  unfold update_step pair_delta
  rw [Nat.add_sub_cancel]
  rw [getD_set_self _ _ _ (by rw [List.length_set]; exact hW),
    getD_set_other _ _ _ _ hne]

/-- Reading the loser slot of one loop iteration: position `m` of the ranking
loses the pair delta. -/
theorem update_step_getD_loser (current_elos : List ℝ) (elo_k : ℝ) (rk : List ℕ)
    (c : List ℝ) (m : ℕ) (hne : rk.getD m 0 ≠ rk.getD (m + 1) 0)
    (hL : rk.getD m 0 < c.length) :
    (update_step current_elos elo_k rk c (m + 1)).getD (rk.getD m 0) 0 =
      c.getD (rk.getD m 0) 0 - pair_delta current_elos rk elo_k (m + 1) := by
  unfold update_step pair_delta
  rw [Nat.add_sub_cancel]
  rw [getD_set_other _ _ _ _ hne.symm, getD_set_self _ _ _ hL]

/-- Reading any other slot of one loop iteration: untouched. -/
theorem update_step_getD_other (current_elos : List ℝ) (elo_k : ℝ) (rk : List ℕ)
    (c : List ℝ) (m x : ℕ) (h1 : x ≠ rk.getD m 0) (h2 : x ≠ rk.getD (m + 1) 0) :
    (update_step current_elos elo_k rk c (m + 1)).getD x 0 = c.getD x 0 := by
  unfold update_step
  rw [Nat.add_sub_cancel]
  rw [getD_set_other _ _ _ _ h2.symm, getD_set_other _ _ _ _ h1.symm]

/-! ### The per-position characterization of the per-game update -/

theorem foldl_update_getD (current_elos : List ℝ) (rk : List ℕ) (elo_k : ℝ)
    (hperm : rk ~ List.range current_elos.length) :
    ∀ m, m ≤ current_elos.length - 1 →
      ∀ i, i < current_elos.length →
        ((List.range' 1 m).foldl (update_step current_elos elo_k rk)
            (List.replicate current_elos.length 0)).getD (rk.getD i 0) 0 =
          (if 1 ≤ i ∧ i ≤ m then pair_delta current_elos rk elo_k i else 0) -
            (if i + 1 ≤ m then pair_delta current_elos rk elo_k (i + 1) else 0) := by
  intro m
  induction m with
  | zero =>
      intro _ i hi
      rw [if_neg (by omega), if_neg (by omega),
        show List.range' 1 0 = ([] : List ℕ) from rfl, List.foldl_nil,
        getD_replicate_zero (perm_range_getD_lt hperm hi)]
      ring
  | succ m ih =>
      intro hm i hi
      have hmlt : m + 1 < current_elos.length := by omega
      have hmlt' : m < current_elos.length := by omega
      have hconcat : List.range' 1 (m + 1) = List.range' 1 m ++ [m + 1] := by
        have h := List.range'_1_concat 1 m
        simpa [Nat.add_comm] using h
      rw [hconcat, List.foldl_append, List.foldl_cons, List.foldl_nil]
      set prev := (List.range' 1 m).foldl (update_step current_elos elo_k rk)
        (List.replicate current_elos.length 0) with hprev
      have hlenprev : prev.length = current_elos.length := by
        rw [hprev, foldl_update_length, List.length_replicate]
      have hLne : rk.getD m 0 ≠ rk.getD (m + 1) 0 :=
        perm_range_getD_ne hperm hmlt' hmlt (by omega)
      rcases Nat.lt_trichotomy i m with hcase | hcase | hcase
      · -- untouched position strictly below the new pair
        have hd1 : rk.getD i 0 ≠ rk.getD m 0 :=
          perm_range_getD_ne hperm hi hmlt' (by omega)
        have hd2 : rk.getD i 0 ≠ rk.getD (m + 1) 0 :=
          perm_range_getD_ne hperm hi hmlt (by omega)
        rw [update_step_getD_other _ _ _ _ _ _ hd1 hd2, ih (by omega) i hi,
          if_congr (show (1 ≤ i ∧ i ≤ m) ↔ (1 ≤ i ∧ i ≤ m + 1) by omega) rfl rfl,
          if_congr (show (i + 1 ≤ m) ↔ (i + 1 ≤ m + 1) by omega) rfl rfl]
      · -- the loser position of the new pair
        subst hcase
        rw [update_step_getD_loser _ _ _ _ _ hLne
            (by rw [hlenprev]; exact perm_range_getD_lt hperm hmlt'),
          ih (by omega) i hi, if_neg (show ¬ (i + 1 ≤ i) by omega),
          if_pos (show i + 1 ≤ i + 1 from le_refl _)]
        by_cases h1i : 1 ≤ i
        · rw [if_pos ⟨h1i, le_refl i⟩, if_pos ⟨h1i, by omega⟩]
          ring
        · rw [if_neg (by omega), if_neg (by omega)]
          ring
      · -- at or above the winner position of the new pair
        by_cases hi1 : i = m + 1
        · subst hi1
          rw [update_step_getD_winner _ _ _ _ _ hLne
            (by rw [hlenprev]; exact perm_range_getD_lt hperm hmlt),
            ih (by omega) (m + 1) hi, if_neg (by omega), if_neg (by omega),
            if_pos (show 1 ≤ m + 1 ∧ m + 1 ≤ m + 1 by omega), if_neg (by omega)]
          ring
        · have hd1 : rk.getD i 0 ≠ rk.getD m 0 :=
            perm_range_getD_ne hperm hi hmlt' (by omega)
          have hd2 : rk.getD i 0 ≠ rk.getD (m + 1) 0 :=
            perm_range_getD_ne hperm hi hmlt (by omega)
          rw [update_step_getD_other _ _ _ _ _ _ hd1 hd2, ih (by omega) i hi,
            if_neg (show ¬ (1 ≤ i ∧ i ≤ m) by omega),
            if_neg (show ¬ (1 ≤ i ∧ i ≤ m + 1) by omega),
            if_neg (show ¬ (i + 1 ≤ m) by omega),
            if_neg (show ¬ (i + 1 ≤ m + 1) by omega)]

theorem elo_change_pos (a b elo_k : ℝ) (hk : 0 < elo_k) : 0 < _elo_change a b elo_k := by
  unfold _elo_change
  have ht : 0 < (10 : ℝ) ^ ((b - a) / 400) := Real.rpow_pos_of_pos (by norm_num) _
  exact div_pos hk (by linarith)

/-- C2 amended: for every rating vector, every ranking that is a permutation of
the player indices and every `k > 0`, the entry of the change vector at the
player in position `i` of the ranking is the pair delta of the adjacent pair
`(i-1, i)` (which that player gains, being the second element of that pair)
minus the pair delta of the pair `(i, i+1)` (which that player loses), each
delta computed from the pre-update ratings and strictly positive: the transfer
of each adjacent pair goes from the earlier-listed player to the later-listed
player, i.e. from the better-ranked to the worse-ranked player when the
ordering is read best-first as the claim reads it. -/
theorem C2_amended (current_elos : List ℝ) (ranking : List ℕ) (elo_k : ℝ)
    (hk : 0 < elo_k) (hperm : ranking ~ List.range current_elos.length)
    (i : ℕ) (hi : i < current_elos.length) :
    (update_elos current_elos ranking elo_k).getD (ranking.getD i 0) 0 =
      (if 1 ≤ i then pair_delta current_elos ranking elo_k i else 0) -
        (if i + 1 < current_elos.length then
          pair_delta current_elos ranking elo_k (i + 1) else 0) ∧
      0 < pair_delta current_elos ranking elo_k i := by
  constructor
  · have h := foldl_update_getD current_elos ranking elo_k hperm
      (current_elos.length - 1) (le_refl _) i hi
    unfold update_elos
    rw [h,
      if_congr (show (1 ≤ i ∧ i ≤ current_elos.length - 1) ↔ 1 ≤ i by omega) rfl rfl,
      if_congr (show (i + 1 ≤ current_elos.length - 1) ↔
        (i + 1 < current_elos.length) by omega) rfl rfl]
  · exact elo_change_pos _ _ _ hk

/-- Witness for the amended C2 at `elos = [1500, 1500]`, `ranking = [0, 1]`,
`k = 20`, position `i = 1`. -/
theorem C2_amended_witness :
    (0 : ℝ) < 20 ∧ ([0, 1] ~ List.range ([(1500 : ℝ), 1500]).length) ∧
      1 < ([(1500 : ℝ), 1500]).length ∧
      ((update_elos [(1500 : ℝ), 1500] [0, 1] 20).getD (([0, 1] : List ℕ).getD 1 0) 0 =
        (if 1 ≤ 1 then pair_delta [(1500 : ℝ), 1500] [0, 1] 20 1 else 0) -
          (if 1 + 1 < ([(1500 : ℝ), 1500]).length then
            pair_delta [(1500 : ℝ), 1500] [0, 1] 20 (1 + 1) else 0) ∧
        0 < pair_delta [(1500 : ℝ), 1500] [0, 1] 20 1) := by
  have hperm : ([0, 1] : List ℕ) ~ List.range ([(1500 : ℝ), 1500]).length := by
    have h2 : List.range ([(1500 : ℝ), 1500]).length = [0, 1] := by
      simp [List.range_succ]
    rw [h2]
  exact ⟨by norm_num, hperm, by norm_num,
    C2_amended [(1500 : ℝ), 1500] [0, 1] 20 (by norm_num) hperm 1 (by norm_num)⟩

/-! ### Claim theorems: tie determinism and the worked example -/

theorem elo_change_self (r elo_k : ℝ) : _elo_change r r elo_k = elo_k / 2 := by
  unfold _elo_change
  rw [sub_self, zero_div, Real.rpow_zero]
  norm_num

/-- C9: on a row of all-equal scores the argsort ordering is the identity
`[0, ..., P-1]`, and repeated calls return the identical ordering. -/
theorem C9_tie_determinism (s : List ℝ) (c : ℝ) (hc : ∀ x ∈ s, x = c) :
    argsort s = List.range s.length ∧ argsort s = argsort s := by
  refine ⟨?_, rfl⟩
  unfold argsort
  apply List.Sorted.insertionSort_eq
  rw [List.Sorted, List.pairwise_iff_getElem]
  intro i j hi hj hij
  rw [List.getElem_range, List.getElem_range]
  have hi' : i < s.length := by simpa using hi
  have hj' : j < s.length := by simpa using hj
  right
  constructor
  · rw [getD_eq_getElem_of_lt _ _ hi', getD_eq_getElem_of_lt _ _ hj',
      hc _ (List.getElem_mem hi'), hc _ (List.getElem_mem hj')]
  · omega

/-- Witness for C9 on the all-equal row `[7, 7, 7]`. -/
theorem C9_tie_determinism_witness :
    (∀ x ∈ [(7 : ℝ), 7, 7], x = 7) ∧
      argsort [(7 : ℝ), 7, 7] = List.range ([(7 : ℝ), 7, 7]).length := by
  have hc : ∀ x ∈ [(7 : ℝ), 7, 7], x = 7 := by
    intro x hx
    simpa using hx
  exact ⟨hc, (C9_tie_determinism [(7 : ℝ), 7, 7] 7 hc).1⟩

/-- C1 is false on the code: on the spec's worked example the change vector is
not `[0, 10, -10]`; in fact entry `1` of the change vector is `-10`. -/
theorem C1_counterexample :
    update_elos [(1500 : ℝ), 1500, 1500] [1, 0, 2] 20 ≠ [0, 10, -10] ∧
      (update_elos [(1500 : ℝ), 1500, 1500] [1, 0, 2] 20).getD 1 0 = -10 := by
  have hd : _elo_change (1500 : ℝ) 1500 20 = 10 := by
    rw [elo_change_self]; norm_num
  have h : update_elos [(1500 : ℝ), 1500, 1500] [1, 0, 2] 20 = [0, -10, 10] := by
    show update_step [(1500 : ℝ), 1500, 1500] 20 [1, 0, 2]
      (update_step [(1500 : ℝ), 1500, 1500] 20 [1, 0, 2] [0, 0, 0] 1) 2 = [0, -10, 10]
    norm_num [update_step, hd]
  rw [h]
  norm_num

/-- C1 amended: on scores `[10, 5, 20]` the computed ordering is `[1, 0, 2]`
(ascending score, i.e. worst-to-best under the code's higher-score-is-better
convention), the change vector at ratings `[1500, 1500, 1500]` with `k = 20`
is `[0, -10, +10]`, and the next rating vector is `[1500, 1490, 1510]`. -/
theorem C1_amended :
    argsort [(10 : ℝ), 5, 20] = [1, 0, 2] ∧
      update_elos [(1500 : ℝ), 1500, 1500] [1, 0, 2] 20 = [0, -10, 10] ∧
      addVec [(1500 : ℝ), 1500, 1500]
        (update_elos [(1500 : ℝ), 1500, 1500] [1, 0, 2] 20) = [1500, 1490, 1510] := by
  have hd : _elo_change (1500 : ℝ) 1500 20 = 10 := by
    rw [elo_change_self]; norm_num
  have h : update_elos [(1500 : ℝ), 1500, 1500] [1, 0, 2] 20 = [0, -10, 10] := by
    show update_step [(1500 : ℝ), 1500, 1500] 20 [1, 0, 2]
      (update_step [(1500 : ℝ), 1500, 1500] 20 [1, 0, 2] [0, 0, 0] 1) 2 = [0, -10, 10]
    norm_num [update_step, hd]
  refine ⟨?_, h, ?_⟩
  · have h12 : keyLt [(10 : ℝ), 5, 20] 1 2 := by norm_num [keyLt]
    have h01 : ¬ keyLt [(10 : ℝ), 5, 20] 0 1 := by norm_num [keyLt]
    have h02 : keyLt [(10 : ℝ), 5, 20] 0 2 := by norm_num [keyLt]
    simp [argsort, h12, h01, h02]
  · rw [h]
    norm_num [addVec]

/-- C2 is false on the code: with ratings `[1500, 1500]`, the best-first
ordering `[0, 1]` and `k = 20`, the change vector is `[-10, 10]`: the
better-ranked player of the adjacent pair (position `0`) loses `10` rather
than gaining it. -/
theorem C2_counterexample :
    update_elos [(1500 : ℝ), 1500] [0, 1] 20 = [-10, 10] ∧
      (update_elos [(1500 : ℝ), 1500] [0, 1] 20).getD 0 0 < 0 := by
  have hd : _elo_change (1500 : ℝ) 1500 20 = 10 := by
    rw [elo_change_self]; norm_num
  have h : update_elos [(1500 : ℝ), 1500] [0, 1] 20 = [-10, 10] := by
    show update_step [(1500 : ℝ), 1500] 20 [0, 1] [0, 0] 1 = [-10, 10]
    norm_num [update_step, hd]
  rw [h]
  norm_num

/-! ### Helper lemmas: the double argsort (dense ranks) -/

theorem perm_range_of_nodup_lt {l : List ℕ} {n : ℕ} (hlen : l.length = n)
    (hnd : l.Nodup) (hlt : ∀ x ∈ l, x < n) : l ~ List.range n := by
  have hsub : l ⊆ List.range n := fun x hx => List.mem_range.mpr (hlt x hx)
  exact (List.subperm_of_subset hnd hsub).perm_of_length_le
    (by rw [hlen, List.length_range])

theorem map_cast_getD_indexOf (a : List ℕ) {j : ℕ} (hj : j ∈ a) :
    (a.map (fun x : ℕ => (x : ℝ))).getD (a.indexOf j) 0 = (j : ℝ) := by
  have hidx : a.indexOf j < a.length := List.indexOf_lt_length.mpr hj
  rw [getD_eq_getElem_of_lt _ _ (by rw [List.length_map]; exact hidx)]
  rw [List.getElem_map]
  rw [List.getElem_indexOf hidx]

/-- The second argsort of the double-argsort idiom: applied to a permutation of
the player indices, it returns the inverse permutation (the position of each
player in the first argsort). -/
theorem argsort_map_cast (a : List ℕ) (h : a ~ List.range a.length) :
    argsort (a.map (fun x : ℕ => (x : ℝ))) =
      (List.range a.length).map (fun j => a.indexOf j) := by
  have hmemj : ∀ j < a.length, j ∈ a := fun j hj =>
    h.mem_iff.mpr (List.mem_range.mpr hj)
  have hidxlt : ∀ j < a.length, a.indexOf j < a.length := fun j hj =>
    List.indexOf_lt_length.mpr (hmemj j hj)
  have hlent : (a.map (fun x : ℕ => (x : ℝ))).length = a.length := List.length_map _ _
  apply @List.eq_of_perm_of_sorted ℕ (keyLt (a.map (fun x : ℕ => (x : ℝ)))) _ _ _
  · -- both sides are permutations of `range a.length`
    have hperm1 : argsort (a.map (fun x : ℕ => (x : ℝ))) ~ List.range a.length := by
      have hp := argsort_perm (a.map (fun x : ℕ => (x : ℝ)))
      rwa [hlent] at hp
    have hperm2 : (List.range a.length).map (fun j => a.indexOf j) ~
        List.range a.length := by
      apply perm_range_of_nodup_lt
      · rw [List.length_map, List.length_range]
      · apply List.Nodup.map_on ?_ (List.nodup_range _)
        intro x hx y hy hEq
        have hx' : x < a.length := List.mem_range.mp hx
        have hy' : y < a.length := List.mem_range.mp hy
        have h1 : a.get ⟨a.indexOf x, hidxlt x hx'⟩ = x := List.indexOf_get _
        have h2 : a.get ⟨a.indexOf y, hidxlt y hy'⟩ = y := List.indexOf_get _
        rw [← h1, ← h2]
        congr 1
        exact Fin.ext hEq
      · intro x hx
        rw [List.mem_map] at hx
        obtain ⟨j, hj, rfl⟩ := hx
        exact hidxlt j (List.mem_range.mp hj)
    exact hperm1.trans hperm2.symm
  · exact argsort_sorted _
  · rw [List.Sorted, List.pairwise_iff_getElem]
    intro p q hp hq hpq
    have hp' : p < a.length := by simpa using hp
    have hq' : q < a.length := by simpa using hq
    rw [List.getElem_map, List.getElem_map, List.getElem_range, List.getElem_range]
    left
    rw [map_cast_getD_indexOf a (hmemj p hp'), map_cast_getD_indexOf a (hmemj q hq')]
    exact_mod_cast hpq

theorem argsort_perm_self (s : List ℝ) : argsort s ~ List.range (argsort s).length := by
  rw [argsort_length]
  exact argsort_perm s

/-- Entry `i` of the dense-rank row: number of players minus the position of
player `i` in the argsort of the row. -/
theorem dense_ranks_getD (s : List ℝ) (i : ℕ) (hi : i < s.length) :
    (dense_ranks s).getD i 0 = (s.length : ℤ) - ((argsort s).indexOf i : ℤ) := by
  unfold dense_ranks
  rw [argsort_map_cast (argsort s) (argsort_perm_self s)]
  rw [List.map_map]
  have hlen : i < ((List.range (argsort s).length).map
      ((fun b : ℕ => (s.length : ℤ) - (b : ℤ)) ∘ fun j => (argsort s).indexOf j)).length := by
    rw [List.length_map, List.length_range, argsort_length]
    exact hi
  rw [List.getD_eq_getElem?_getD, List.getElem?_eq_getElem hlen]
  simp

/-- In the argsort of a row with a strict maximum, the maximal player occupies
the last position. -/
theorem argsort_indexOf_max (s : List ℝ) (i : ℕ) (hi : i < s.length)
    (hmax : ∀ j < s.length, j ≠ i → s.getD j 0 < s.getD i 0) :
    (argsort s).indexOf i = s.length - 1 := by
  have hlen : (argsort s).length = s.length := argsort_length s
  have hmem : i ∈ argsort s := (argsort_perm s).mem_iff.mpr (List.mem_range.mpr hi)
  have hidx : (argsort s).indexOf i < (argsort s).length :=
    List.indexOf_lt_length.mpr hmem
  by_contra hne
  have hlt : (argsort s).indexOf i + 1 < (argsort s).length := by omega
  have hsorted := argsort_sorted s
  rw [List.Sorted, List.pairwise_iff_getElem] at hsorted
  have hrel := hsorted ((argsort s).indexOf i) ((argsort s).indexOf i + 1)
    hidx hlt (by omega)
  have hai : (argsort s)[(argsort s).indexOf i] = i := List.getElem_indexOf hidx
  have hqmem : (argsort s)[(argsort s).indexOf i + 1] ∈ argsort s := List.getElem_mem hlt
  have hqlt : (argsort s)[(argsort s).indexOf i + 1] < s.length := argsort_mem_lt s hqmem
  have hqne : (argsort s)[(argsort s).indexOf i + 1] ≠ i := by
    intro hEq
    have hEq2 : (argsort s)[(argsort s).indexOf i + 1] = (argsort s)[(argsort s).indexOf i] := by
      rw [hai]
      exact hEq
    have := ((argsort_nodup s).getElem_inj_iff).mp hEq2
    omega
  have hqs : s.getD ((argsort s)[(argsort s).indexOf i + 1]) 0 < s.getD i 0 :=
    hmax _ hqlt hqne
  rw [hai] at hrel
  rcases hrel with h | ⟨h, _⟩ <;> linarith

/-- C4 is false on the code: on the row `[1, 2]` the dense ranks are `[2, 1]`:
the player with the smallest score (player `0`) receives rank `2`, not `1`. -/
theorem C4_counterexample :
    dense_ranks [(1 : ℝ), 2] = [2, 1] ∧ (dense_ranks [(1 : ℝ), 2]).getD 0 0 ≠ 1 := by
  have h01 : keyLt [(1 : ℝ), 2] 0 1 := by norm_num [keyLt]
  have hr : argsort [(1 : ℝ), 2] = [0, 1] := by
    simp [argsort, h01]
  have h01' : keyLt [(0 : ℝ), 1] 0 1 := by norm_num [keyLt]
  have hr2 : argsort [(0 : ℝ), 1] = [0, 1] := by
    simp [argsort, h01']
  have hcast : (([0, 1] : List ℕ)).map (fun x : ℕ => (x : ℝ)) = [0, 1] := by
    norm_num
  have hmain : dense_ranks [(1 : ℝ), 2] = [2, 1] := by
    unfold dense_ranks
    rw [hr, hcast, hr2]
    norm_num
  exact ⟨hmain, by rw [hmain]; norm_num⟩

/-- C4 amended: in the dense rank form, every rank lies in `[1, P]`, and the
player with the strictly largest score (not the smallest) receives rank `1`:
higher score means better (lower-numbered) rank. -/
theorem C4_amended (s : List ℝ) (i : ℕ) (hi : i < s.length)
    (hmax : ∀ j < s.length, j ≠ i → s.getD j 0 < s.getD i 0) :
    (dense_ranks s).getD i 0 = 1 ∧
      ∀ x ∈ dense_ranks s, 1 ≤ x ∧ x ≤ (s.length : ℤ) := by
  constructor
  · rw [dense_ranks_getD s i hi, argsort_indexOf_max s i hi hmax]
    omega
  · intro x hx
    unfold dense_ranks at hx
    rw [List.mem_map] at hx
    obtain ⟨b, hb, rfl⟩ := hx
    have hblt := argsort_mem_lt _ hb
    rw [List.length_map, argsort_length] at hblt
    omega

/-- Witness for the amended C4 on the row `[1, 2]` with maximal player `1`. -/
theorem C4_amended_witness :
    1 < ([(1 : ℝ), 2]).length ∧
      (∀ j < ([(1 : ℝ), 2]).length, j ≠ 1 →
        ([(1 : ℝ), 2]).getD j 0 < ([(1 : ℝ), 2]).getD 1 0) ∧
      (dense_ranks [(1 : ℝ), 2]).getD 1 0 = 1 := by
  have hmax : ∀ j < ([(1 : ℝ), 2]).length, j ≠ 1 →
      ([(1 : ℝ), 2]).getD j 0 < ([(1 : ℝ), 2]).getD 1 0 := by
    intro j hj hne
    simp only [List.length_cons, List.length_nil] at hj
    have hj0 : j = 0 := by omega
    subst hj0
    norm_num
  exact ⟨by norm_num, hmax, (C4_amended [(1 : ℝ), 2] 1 (by norm_num) hmax).1⟩

/-- C10 (implicit): the total rating mass is conserved along the whole pass:
every row of the rating history has the same sum as the seed row. -/
theorem C10_mass_conservation (scores : List (List ℝ)) (num_players : ℕ) (i : ℕ)
    (hrows : ∀ row ∈ scores, row.length = num_players)
    (hi : i < (run_ratings scores num_players).length) :
    ((run_ratings scores num_players).getD i []).sum = (seedElos num_players).sum :=
  elo_loop_sum scores (seedElos num_players) 20 num_players
    (by rw [seedElos, List.length_map, List.length_range]) hrows i hi

/-- Witness for C10 on the table `[[1, 2]]` at history row `1`. -/
theorem C10_mass_conservation_witness :
    (∀ row ∈ [[(1 : ℝ), 2]], row.length = 2) ∧
      1 < (run_ratings [[(1 : ℝ), 2]] 2).length ∧
      ((run_ratings [[(1 : ℝ), 2]] 2).getD 1 []).sum = (seedElos 2).sum := by
  have hrows : ∀ row ∈ [[(1 : ℝ), 2]], row.length = 2 := by
    intro row hr
    simp only [List.mem_singleton] at hr
    rw [hr]
    rfl
  have hlen : 1 < (run_ratings [[(1 : ℝ), 2]] 2).length := by
    show 1 < (elo_loop (seedElos 2) 20 [[(1 : ℝ), 2]]).length
    rw [elo_loop_length]
    norm_num
  exact ⟨hrows, hlen, C10_mass_conservation [[(1 : ℝ), 2]] 2 1 hrows hlen⟩

end
